import Mathlib

/-!
Shallow embedding of the reconciliation and batching pipeline of
`seller.py` (Ozon) and `market.py` (Yandex Market).

Python strings are modelled as Lean `String` over code points; Python
`list` mutation (the in-place `offer_ids.remove(...)` of `create_stocks`)
is modelled by state passing: every embedded function that receives the
mutable `offer_ids` list also returns its final state.  A Python
`ValueError` is modelled as `none` / `Except.error`.
-/

/-- Python `str.strip()` on a list of code points: drop the whitespace
on both ends. -/
def pyStrip (l : List Char) : List Char :=
  ((l.dropWhile Char.isWhitespace).reverse.dropWhile Char.isWhitespace).reverse

/-- Value of a nonempty all-digit token; `none` otherwise. -/
def pyDigits (ds : List Char) : Option Nat :=
  if ds ≠ [] ∧ ds.all Char.isDigit then
    some (ds.foldl (fun a c => 10 * a + (c.toNat - 48)) 0)
  else none

/-- Python `int(s)` on a string: optional surrounding whitespace, an
optional sign, then decimal digits; `none` models the `ValueError` raised
on a non-numeric token.  (Underscore digit separators are not modelled;
no claim depends on them.) -/
def pyToInt (s : String) : Option Int :=
  match pyStrip s.toList with
  | '-' :: ds => (pyDigits ds).map (fun n => -(n : Int))
  | '+' :: ds => (pyDigits ds).map (fun n => (n : Int))
  | ds => (pyDigits ds).map (fun n => (n : Int))

/-- Python `s.split(".")` on a list of code points. -/
def pySplitDot : List Char → List (List Char)
  | [] => [[]]
  | c :: cs =>
    if c = '.' then [] :: pySplitDot cs
    else
      match pySplitDot cs with
      | [] => [[c]]
      | seg :: rest => (c :: seg) :: rest

/-- Python `range(0, stop, step)` for `stop ≥ 0` and `step ≠ 0` (the
only shape `divide` uses): for a positive step the indices
`0, step, 2*step, …` below `stop`; for a negative step the range is
empty because `stop ≥ 0 = start`. -/
def pyRange0 (stop : Nat) (step : Int) : List Int :=
  if 0 < step then
    (List.range ((stop + step.toNat - 1) / step.toNat)).map (fun i => Int.ofNat i * step)
  else []

/-- Python `lst[a : b]` for `0 ≤ a ≤ b` (the only case `divide`
exercises). -/
def pySlice {α : Type} (lst : List α) (a b : Int) : List α :=
  (lst.drop a.toNat).take (b - a).toNat

/-- One row of the vendor inventory snapshot (`watch_remnants`).  The
fields hold the strings `str(watch.get("Код"))`, the quantity token
`str(watch.get("Количество"))`, and the raw price `watch.get("Цена")`,
per the data model (all snapshot fields are strings). -/
structure Watch where
  code : String
  quantityRaw : String
  priceRaw : String
deriving Repr, DecidableEq

namespace seller

/-- The quantity-token rule inlined verbatim in both
`seller.create_stocks` and `market.create_stocks`:
`">10" → 100`, `"1" → 0`, otherwise `int(raw)` (`none` models the
`ValueError` of `int` on a non-numeric token). -/
def normalize_quantity (count : String) : Option Int :=
  if count = ">10" then some 100
  else if count = "1" then some 0
  else pyToInt count

/-- A stock record `{"offer_id": ..., "stock": ...}` built by
`seller.create_stocks`. -/
structure StockRecord where
  offer_id : String
  stock : Int
deriving Repr, DecidableEq

/-- The first loop of `seller.create_stocks`: for each watch whose code
is in `offer_ids`, append `{"offer_id": code, "stock": stock}` and
remove the code from the caller's `offer_ids` list (`List.erase`, like
Python `list.remove`, deletes the first occurrence).  Returns the
appended records together with the final state of `offer_ids`; `none`
models the `ValueError` of `int` on a bad quantity token. -/
def create_stocks_loop : List Watch → List String → Option (List StockRecord × List String)
  | [], offer_ids => some ([], offer_ids)
  | watch :: rest, offer_ids =>
    if watch.code ∈ offer_ids then
      match normalize_quantity watch.quantityRaw with
      | none => none
      | some stock =>
        match create_stocks_loop rest (offer_ids.erase watch.code) with
        | none => none
        | some (stocks, remaining) =>
          some ({ offer_id := watch.code, stock := stock } :: stocks, remaining)
    else
      create_stocks_loop rest offer_ids

/-- `seller.create_stocks`: the matching loop above, then one
`{"offer_id": id, "stock": 0}` record for every id still left in the
(now mutated) `offer_ids` list.  The second component is the final
state of the caller's `offer_ids` list. -/
def create_stocks (watch_remnants : List Watch) (offer_ids : List String) :
    Option (List StockRecord × List String) :=
  match create_stocks_loop watch_remnants offer_ids with
  | none => none
  | some (matched, remaining) =>
    some (matched ++ remaining.map (fun offer_id => { offer_id := offer_id, stock := 0 }),
          remaining)

/-- `seller.price_conversion`:
`re.sub("[^0-9]", "", price.split(".")[0])` — keep the part before the
first `.` and delete every character that is not an ASCII digit. -/
def price_conversion (price : String) : String :=
  String.mk (((pySplitDot price.toList).headD []).filter Char.isDigit)

/-- A price record built by `seller.create_prices`. -/
structure PriceRecord where
  auto_action_enabled : String
  currency_code : String
  offer_id : String
  old_price : String
  price : String
deriving Repr, DecidableEq

/-- `seller.create_prices`: one record per watch whose code is in
`offer_ids`.  The loop reads `offer_ids` but never mutates it; the
state-passing translation still returns the final state of the list as
the second component. -/
def create_prices : List Watch → List String → List PriceRecord × List String
  | [], offer_ids => ([], offer_ids)
  | watch :: rest, offer_ids =>
    if watch.code ∈ offer_ids then
      let p := create_prices rest offer_ids
      ({ auto_action_enabled := "UNKNOWN", currency_code := "RUB",
         offer_id := watch.code, old_price := "0",
         price := price_conversion watch.priceRaw } :: p.1, p.2)
    else
      create_prices rest offer_ids

/-- `seller.divide`, materialized (every call site wraps it in
`list(...)`): `for i in range(0, len(lst), n): yield lst[i : i + n]`.
`none` models the `ValueError` that `range` raises on a zero step. -/
def divide {α : Type} (lst : List α) (n : Int) : Option (List (List α)) :=
  if n = 0 then none
  else some ((pyRange0 lst.length n).map (fun i => pySlice lst i (i + n)))

/-- The per-batch submission loop shared by the upload orchestrators:
call `submit` once per batch, in order, stopping at the first error.
Returns the list of batches actually passed to `submit` (in call order,
one entry per call — no retries) and the error, if one occurred. -/
def submit_loop {β ε : Type} (submit : β → Except ε Unit) : List β → List β × Option ε
  | [] => ([], none)
  | b :: bs =>
    match submit b with
    | .error e => ([b], some e)
    | .ok _ =>
      let r := submit_loop submit bs
      (b :: r.1, r.2)

/-- `seller.upload_stocks` with its collaborators abstracted: the offer
ids fetched by `get_offer_ids` are a parameter, and `update_stocks` is
the `submit` oracle.  The result carries the trace of submitted batches
and either the propagated remote error or the returned pair
`(non-zero-stock records, all records)`; `none` models a `ValueError`
escaping `create_stocks` (before any submission). -/
def upload_stocks {ε : Type} (watch_remnants : List Watch) (offer_ids : List String)
    (submit : List StockRecord → Except ε Unit) :
    Option (List (List StockRecord) × Except ε (List StockRecord × List StockRecord)) :=
  match create_stocks watch_remnants offer_ids with
  | none => none
  | some (stocks, _) =>
    match divide stocks 100 with
    | none => none
    | some batches =>
      let r := submit_loop submit batches
      match r.2 with
      | some e => some (r.1, .error e)
      | none => some (r.1, .ok (stocks.filter (fun s => s.stock != 0), stocks))

end seller

namespace market

/-- One entry of the `items` field of a Yandex stock record. -/
structure StockItem where
  count : Int
  type : String
  updatedAt : String
deriving Repr, DecidableEq

/-- A stock record built by `market.create_stocks`. -/
structure StockRecord where
  sku : String
  warehouseId : String
  items : List StockItem
deriving Repr, DecidableEq

/-- The first loop of `market.create_stocks`; the quantity-token chain
is the verbatim duplicate of the seller one (`seller.normalize_quantity`).
`date` is the `datetime.datetime.utcnow()`-derived timestamp string the
source computes once at entry, taken here as a parameter. -/
def create_stocks_loop (date warehouse_id : String) :
    List Watch → List String → Option (List StockRecord × List String)
  | [], offer_ids => some ([], offer_ids)
  | watch :: rest, offer_ids =>
    if watch.code ∈ offer_ids then
      match seller.normalize_quantity watch.quantityRaw with
      | none => none
      | some stock =>
        match create_stocks_loop date warehouse_id rest (offer_ids.erase watch.code) with
        | none => none
        | some (stocks, remaining) =>
          some ({ sku := watch.code, warehouseId := warehouse_id,
                  items := [{ count := stock, type := "FIT", updatedAt := date }] } :: stocks,
                remaining)
    else
      create_stocks_loop date warehouse_id rest offer_ids

/-- `market.create_stocks`: matching loop, then a zero-count record for
every id left in the mutated `offer_ids` list. -/
def create_stocks (date warehouse_id : String) (watch_remnants : List Watch)
    (offer_ids : List String) : Option (List StockRecord × List String) :=
  match create_stocks_loop date warehouse_id watch_remnants offer_ids with
  | none => none
  | some (matched, remaining) =>
    some (matched ++ remaining.map (fun offer_id =>
            { sku := offer_id, warehouseId := warehouse_id,
              items := [{ count := 0, type := "FIT", updatedAt := date }] }),
          remaining)

/-- The `price` object of a Yandex price record. -/
structure PriceValue where
  value : Int
  currencyId : String
deriving Repr, DecidableEq

/-- A price record built by `market.create_prices`. -/
structure PriceRecord where
  id : String
  price : PriceValue
deriving Repr, DecidableEq

/-- `market.create_prices`: one record per watch whose code is in
`offer_ids`, with `int(price_conversion(watch.get("Цена")))` as the
value — `none` models the `ValueError` of `int` when the digit string
is empty.  The loop never mutates `offer_ids`; its final state is
returned as the second component. -/
def create_prices : List Watch → List String → Option (List PriceRecord × List String)
  | [], offer_ids => some ([], offer_ids)
  | watch :: rest, offer_ids =>
    if watch.code ∈ offer_ids then
      match pyToInt (seller.price_conversion watch.priceRaw) with
      | none => none
      | some v =>
        match create_prices rest offer_ids with
        | none => none
        | some (prices, os) =>
          some ({ id := watch.code, price := { value := v, currencyId := "RUR" } } :: prices,
                os)
    else
      create_prices rest offer_ids

/-- `market.upload_stocks` with collaborators abstracted, batch size
2000.  The not-empty filter reads `stock.get("items")[0].get("count")`;
every record built by `create_stocks` has a singleton `items`, and the
indexing is modelled with `headD`. -/
def upload_stocks {ε : Type} (date warehouse_id : String) (watch_remnants : List Watch)
    (offer_ids : List String) (submit : List StockRecord → Except ε Unit) :
    Option (List (List StockRecord) × Except ε (List StockRecord × List StockRecord)) :=
  match create_stocks date warehouse_id watch_remnants offer_ids with
  | none => none
  | some (stocks, _) =>
    match seller.divide stocks 2000 with
    | none => none
    | some batches =>
      let r := seller.submit_loop submit batches
      match r.2 with
      | some e => some (r.1, .error e)
      | none =>
        some (r.1,
              .ok (stocks.filter
                     (fun s => (s.items.headD { count := 0, type := "", updatedAt := "" }).count != 0),
                   stocks))

end market

/-! ## Helper lemmas about the reconciler -/

/-- Each matched record accounts for exactly one occurrence erased from
`offer_ids`: the emitted offer ids followed by the final list are a
permutation of the original list. -/
theorem seller_loop_perm (ws : List Watch) :
    ∀ (offers : List String) (recs : List seller.StockRecord) (rem : List String),
      seller.create_stocks_loop ws offers = some (recs, rem) →
      ((recs.map seller.StockRecord.offer_id) ++ rem).Perm offers := by
  induction ws with
  | nil =>
    intro offers recs rem h
    simp only [seller.create_stocks_loop, Option.some.injEq, Prod.mk.injEq] at h
    obtain ⟨rfl, rfl⟩ := h
    simp
  | cons w ws ih =>
    intro offers recs rem h
    simp only [seller.create_stocks_loop] at h
    by_cases hm : w.code ∈ offers
    · rw [if_pos hm] at h
      cases hq : seller.normalize_quantity w.quantityRaw with
      | none => rw [hq] at h; cases h
      | some stock =>
        rw [hq] at h
        cases hl : seller.create_stocks_loop ws (offers.erase w.code) with
        | none => rw [hl] at h; cases h
        | some p =>
          obtain ⟨recs', rem'⟩ := p
          rw [hl] at h
          simp only [Option.some.injEq, Prod.mk.injEq] at h
          obtain ⟨rfl, rfl⟩ := h
          have hperm := ih (offers.erase w.code) recs' rem' hl
          simp only [List.map_cons, List.cons_append]
          exact (hperm.cons w.code).trans (List.perm_cons_erase hm).symm
    · rw [if_neg hm] at h
      exact ih offers recs rem h

/-- With distinct offer ids, the final state of the caller's list is
exactly the original ids whose code never occurs in the inventory. -/
theorem seller_loop_rem (ws : List Watch) :
    ∀ (offers : List String) (recs : List seller.StockRecord) (rem : List String),
      offers.Nodup →
      seller.create_stocks_loop ws offers = some (recs, rem) →
      rem = offers.filter (fun o => decide (o ∉ ws.map Watch.code)) := by
  induction ws with
  | nil =>
    intro offers recs rem _ h
    simp only [seller.create_stocks_loop, Option.some.injEq, Prod.mk.injEq] at h
    obtain ⟨rfl, rfl⟩ := h
    simp
  | cons w ws ih =>
    intro offers recs rem hnd h
    simp only [seller.create_stocks_loop] at h
    by_cases hm : w.code ∈ offers
    · rw [if_pos hm] at h
      cases hq : seller.normalize_quantity w.quantityRaw with
      | none => rw [hq] at h; cases h
      | some stock =>
        rw [hq] at h
        cases hl : seller.create_stocks_loop ws (offers.erase w.code) with
        | none => rw [hl] at h; cases h
        | some p =>
          obtain ⟨recs', rem'⟩ := p
          rw [hl] at h
          simp only [Option.some.injEq, Prod.mk.injEq] at h
          obtain ⟨rfl, rfl⟩ := h
          have hrem := ih (offers.erase w.code) recs' rem' (hnd.erase _) hl
          rw [hnd.erase_eq_filter w.code, List.filter_filter] at hrem
          rw [hrem]
          apply List.filter_congr
          intro o _
          by_cases h1 : o = w.code <;> by_cases h2 : o ∈ ws.map Watch.code <;>
            simp [h1, h2]
    · rw [if_neg hm] at h
      have hrem := ih offers recs rem hnd h
      rw [hrem]
      apply List.filter_congr
      intro o ho
      have h1 : o ≠ w.code := fun he => hm (he ▸ ho)
      by_cases h2 : o ∈ ws.map Watch.code <;> simp [h1, h2]

/-- Every record emitted by the matching loop carries the normalized
quantity of an inventory record with the same code. -/
theorem seller_loop_matched (ws : List Watch) :
    ∀ (offers : List String) (recs : List seller.StockRecord) (rem : List String),
      seller.create_stocks_loop ws offers = some (recs, rem) →
      ∀ r ∈ recs, ∃ w ∈ ws, w.code = r.offer_id ∧
        seller.normalize_quantity w.quantityRaw = some r.stock := by
  induction ws with
  | nil =>
    intro offers recs rem h
    simp only [seller.create_stocks_loop, Option.some.injEq, Prod.mk.injEq] at h
    obtain ⟨rfl, rfl⟩ := h
    intro r hr
    cases hr
  | cons w ws ih =>
    intro offers recs rem h
    simp only [seller.create_stocks_loop] at h
    by_cases hm : w.code ∈ offers
    · rw [if_pos hm] at h
      cases hq : seller.normalize_quantity w.quantityRaw with
      | none => rw [hq] at h; cases h
      | some stock =>
        rw [hq] at h
        cases hl : seller.create_stocks_loop ws (offers.erase w.code) with
        | none => rw [hl] at h; cases h
        | some p =>
          obtain ⟨recs', rem'⟩ := p
          rw [hl] at h
          simp only [Option.some.injEq, Prod.mk.injEq] at h
          obtain ⟨rfl, rfl⟩ := h
          intro r hr
          rcases List.mem_cons.mp hr with hr0 | hr'
          · exact ⟨w, List.mem_cons_self w ws, by rw [hr0], by rw [hr0]; exact hq⟩
          · obtain ⟨w', hw', hc, hs⟩ := ih (offers.erase w.code) recs' rem' hl r hr'
            exact ⟨w', List.mem_cons_of_mem w hw', hc, hs⟩
    · rw [if_neg hm] at h
      intro r hr
      obtain ⟨w', hw', hc, hs⟩ := ih offers recs rem h r hr
      exact ⟨w', List.mem_cons_of_mem w hw', hc, hs⟩

/-- The Yandex stock record built from a seller stock record with the
given timestamp and warehouse. -/
def ofSellerStock (date warehouse_id : String) (r : seller.StockRecord) : market.StockRecord :=
  { sku := r.offer_id, warehouseId := warehouse_id,
    items := [{ count := r.stock, type := "FIT", updatedAt := date }] }

/-- `market.create_stocks_loop` is the seller loop with every record
re-shaped for Yandex; in particular both mutate `offer_ids` identically. -/
theorem market_loop_eq (date wid : String) (ws : List Watch) :
    ∀ offers : List String,
      market.create_stocks_loop date wid ws offers =
        (seller.create_stocks_loop ws offers).map
          (fun p => (p.1.map (ofSellerStock date wid), p.2)) := by
  induction ws with
  | nil => intro offers; simp [market.create_stocks_loop, seller.create_stocks_loop]
  | cons w ws ih =>
    intro offers
    simp only [market.create_stocks_loop, seller.create_stocks_loop]
    by_cases hm : w.code ∈ offers
    · rw [if_pos hm, if_pos hm]
      cases hq : seller.normalize_quantity w.quantityRaw with
      | none => simp
      | some stock =>
        rw [ih (offers.erase w.code)]
        cases hl : seller.create_stocks_loop ws (offers.erase w.code) with
        | none => simp
        | some p =>
          obtain ⟨recs, rem⟩ := p
          simp [ofSellerStock]
    · rw [if_neg hm, if_neg hm]
      exact ih offers

/-- `market.create_stocks` equals `seller.create_stocks` up to record
re-shaping, with the same final `offer_ids` state. -/
theorem market_create_stocks_eq (date wid : String) (ws : List Watch) (offers : List String) :
    market.create_stocks date wid ws offers =
      (seller.create_stocks ws offers).map
        (fun p => (p.1.map (ofSellerStock date wid), p.2)) := by
  simp only [market.create_stocks, seller.create_stocks, market_loop_eq]
  cases hl : seller.create_stocks_loop ws offers with
  | none => simp
  | some p =>
    obtain ⟨recs, rem⟩ := p
    simp [ofSellerStock, List.map_append, List.map_map]

/-- The offer ids of the price records are the inventory codes that
occur in `offer_ids`, in inventory order. -/
theorem seller_prices_ids (ws : List Watch) (offers : List String) :
    ((seller.create_prices ws offers).1).map seller.PriceRecord.offer_id
      = (ws.map Watch.code).filter (fun c => decide (c ∈ offers)) := by
  induction ws with
  | nil => simp [seller.create_prices]
  | cons w ws ih =>
    simp only [seller.create_prices]
    by_cases hm : w.code ∈ offers
    · rw [if_pos hm]
      simp [hm, ih]
    · rw [if_neg hm]
      simp [hm, ih]

/-- The seller price loop threads `offer_ids` through unchanged. -/
theorem seller_prices_state (ws : List Watch) (offers : List String) :
    (seller.create_prices ws offers).2 = offers := by
  induction ws with
  | nil => simp [seller.create_prices]
  | cons w ws ih =>
    simp only [seller.create_prices]
    by_cases hm : w.code ∈ offers
    · rw [if_pos hm]; exact ih
    · rw [if_neg hm]; exact ih

/-- The market price loop also returns `offer_ids` unchanged whenever it
succeeds. -/
theorem market_prices_state (ws : List Watch) :
    ∀ (offers : List String) (prices : List market.PriceRecord) (os : List String),
      market.create_prices ws offers = some (prices, os) → os = offers := by
  induction ws with
  | nil =>
    intro offers prices os h
    simp only [market.create_prices, Option.some.injEq, Prod.mk.injEq] at h
    exact h.2.symm
  | cons w ws ih =>
    intro offers prices os h
    simp only [market.create_prices] at h
    by_cases hm : w.code ∈ offers
    · rw [if_pos hm] at h
      cases hv : pyToInt (seller.price_conversion w.priceRaw) with
      | none => rw [hv] at h; cases h
      | some v =>
        rw [hv] at h
        cases hl : market.create_prices ws offers with
        | none => rw [hl] at h; cases h
        | some p =>
          obtain ⟨ps, os'⟩ := p
          rw [hl] at h
          simp only [Option.some.injEq, Prod.mk.injEq] at h
          obtain ⟨-, rfl⟩ := h
          exact ih offers ps os' hl
    · rw [if_neg hm] at h
      exact ih offers prices os h

/-! ## Claim theorems -/

/-- C1: for every inventory list and offer-id list with distinct codes
and distinct ids, when `create_stocks` succeeds its stock records cover
exactly the original offer ids, one record per id; matched records carry
the normalized quantity of an inventory row with the same code and the
other records carry stock 0; and the price records of `create_prices`
cover exactly the inventory codes present in the original offer-id
list. -/
theorem C1_reconciliation_coverage (ws : List Watch) (offers : List String)
    (hS : offers.Nodup) (_hI : (ws.map Watch.code).Nodup)
    (stocks : List seller.StockRecord) (rem : List String)
    (h : seller.create_stocks ws offers = some (stocks, rem)) :
    (stocks.map seller.StockRecord.offer_id).Perm offers ∧
    (stocks.map seller.StockRecord.offer_id).Nodup ∧
    (∀ r ∈ stocks,
      (∃ w ∈ ws, w.code = r.offer_id ∧
        seller.normalize_quantity w.quantityRaw = some r.stock) ∨
      (r.stock = 0 ∧ r.offer_id ∉ ws.map Watch.code)) ∧
    ((seller.create_prices ws offers).1).map seller.PriceRecord.offer_id
      = (ws.map Watch.code).filter (fun c => decide (c ∈ offers)) := by
  simp only [seller.create_stocks] at h
  cases hl : seller.create_stocks_loop ws offers with
  | none => rw [hl] at h; cases h
  | some p =>
    obtain ⟨recs, rem'⟩ := p
    rw [hl] at h
    simp only [Option.some.injEq, Prod.mk.injEq] at h
    obtain ⟨rfl, rfl⟩ := h
    have hperm := seller_loop_perm ws offers recs rem' hl
    have hids :
        ((recs ++ rem'.map fun oid =>
            ({ offer_id := oid, stock := 0 } : seller.StockRecord)).map
          seller.StockRecord.offer_id)
          = recs.map seller.StockRecord.offer_id ++ rem' := by
      simp [List.map_append, List.map_map, Function.comp_def]
    refine ⟨?_, ?_, ?_, seller_prices_ids ws offers⟩
    · rw [hids]; exact hperm
    · rw [hids]; exact hperm.nodup_iff.mpr hS
    · intro r hr
      rcases List.mem_append.mp hr with hr1 | hr2
      · exact Or.inl (seller_loop_matched ws offers recs rem' hl r hr1)
      · obtain ⟨oid, hoid, rfl⟩ := List.mem_map.mp hr2
        have hrem := seller_loop_rem ws offers recs rem' hS hl
        rw [hrem] at hoid
        have hp := List.of_mem_filter hoid
        exact Or.inr ⟨rfl, by simpa using hp⟩

/-- The end-to-end scenario of the spec: two inventory rows against
three listed offer ids. -/
def demoWatches : List Watch :=
  [{ code := "A1", quantityRaw := ">10", priceRaw := "500.00" },
   { code := "A2", quantityRaw := "1", priceRaw := "1200.50" }]

/-- The marketplace offer ids of the demo scenario. -/
def demoOffers : List String := ["A1", "A2", "A3"]

/-- The stock records the demo scenario produces. -/
def demoStocks : List seller.StockRecord :=
  [{ offer_id := "A1", stock := 100 }, { offer_id := "A2", stock := 0 },
   { offer_id := "A3", stock := 0 }]

theorem C1_reconciliation_coverage_witness :
    (demoStocks.map seller.StockRecord.offer_id).Perm demoOffers ∧
    (demoStocks.map seller.StockRecord.offer_id).Nodup ∧
    (∀ r ∈ demoStocks,
      (∃ w ∈ demoWatches, w.code = r.offer_id ∧
        seller.normalize_quantity w.quantityRaw = some r.stock) ∨
      (r.stock = 0 ∧ r.offer_id ∉ demoWatches.map Watch.code)) ∧
    ((seller.create_prices demoWatches demoOffers).1).map seller.PriceRecord.offer_id
      = (demoWatches.map Watch.code).filter (fun c => decide (c ∈ demoOffers)) :=
  C1_reconciliation_coverage demoWatches demoOffers (by decide) (by decide)
    demoStocks ["A3"] (by decide)

/-- C2: the quantity normalization used by `create_stocks` on both
marketplaces maps `">10"` to 100, `"1"` to 0, and any other token to its
integer parse (`none`, the `ValueError`, on a non-numeric token); a
matched singleton inventory produces exactly that value in both the
seller and the market record shapes. -/
theorem C2_quantity_normalization :
    seller.normalize_quantity ">10" = some 100 ∧
    seller.normalize_quantity "1" = some 0 ∧
    seller.normalize_quantity "7" = some 7 ∧
    (∀ s : String, s ≠ ">10" → s ≠ "1" → seller.normalize_quantity s = pyToInt s) ∧
    seller.normalize_quantity "5 pcs" = none ∧
    (∀ w : Watch,
      seller.create_stocks [w] [w.code]
        = (seller.normalize_quantity w.quantityRaw).map
            (fun q => ([{ offer_id := w.code, stock := q }], []))) ∧
    (∀ (w : Watch) (date wid : String),
      market.create_stocks date wid [w] [w.code]
        = (seller.normalize_quantity w.quantityRaw).map
            (fun q => ([{ sku := w.code, warehouseId := wid,
                          items := [{ count := q, type := "FIT", updatedAt := date }] }],
                       []))) := by
  refine ⟨by decide, by decide, by decide, ?_, by decide, ?_, ?_⟩
  · intro s h1 h2
    simp [seller.normalize_quantity, h1, h2]
  · intro w
    cases hq : seller.normalize_quantity w.quantityRaw with
    | none => simp [seller.create_stocks, seller.create_stocks_loop, hq]
    | some q => simp [seller.create_stocks, seller.create_stocks_loop, hq]
  · intro w date wid
    rw [market_create_stocks_eq]
    cases hq : seller.normalize_quantity w.quantityRaw with
    | none => simp [seller.create_stocks, seller.create_stocks_loop, hq]
    | some q => simp [seller.create_stocks, seller.create_stocks_loop, hq, ofSellerStock]

theorem C2_quantity_normalization_witness :
    ("55" ≠ ">10") ∧ ("55" ≠ "1") ∧ seller.normalize_quantity "55" = pyToInt "55" :=
  ⟨by decide, by decide,
   C2_quantity_normalization.2.2.2.1 "55" (by decide) (by decide)⟩

/-- C3 counterexample: with the offer id "A" listed twice, the matched
code "A" is removed only once, so after the call the caller's list still
contains "A" even though its code occurred in the inventory — the
claim's unrestricted "for every offer-id list" fails. -/
theorem C3_counterexample :
    seller.create_stocks [{ code := "A", quantityRaw := "5", priceRaw := "100" }] ["A", "A"]
        = some ([{ offer_id := "A", stock := 5 }, { offer_id := "A", stock := 0 }], ["A"]) ∧
    "A" ∈ ([{ code := "A", quantityRaw := "5", priceRaw := "100" }] : List Watch).map Watch.code ∧
    (["A"] : List String) ≠
      (["A", "A"] : List String).filter
        (fun o => decide (o ∉
          ([{ code := "A", quantityRaw := "5", priceRaw := "100" }] : List Watch).map Watch.code)) :=
  ⟨by decide, by decide, by decide⟩

/-- C3 (amended with distinct offer ids): a call to `create_stocks` on
either marketplace leaves the caller's offer-id list holding exactly the
original ids whose code did not appear in the inventory. -/
theorem C3_offer_ids_consumed (ws : List Watch) (offers : List String)
    (hS : offers.Nodup) :
    (∀ (stocks : List seller.StockRecord) (rem : List String),
      seller.create_stocks ws offers = some (stocks, rem) →
      rem = offers.filter (fun o => decide (o ∉ ws.map Watch.code))) ∧
    (∀ (date wid : String) (mstocks : List market.StockRecord) (mrem : List String),
      market.create_stocks date wid ws offers = some (mstocks, mrem) →
      mrem = offers.filter (fun o => decide (o ∉ ws.map Watch.code))) := by
  have hsell : ∀ (stocks : List seller.StockRecord) (rem : List String),
      seller.create_stocks ws offers = some (stocks, rem) →
      rem = offers.filter (fun o => decide (o ∉ ws.map Watch.code)) := by
    intro stocks rem h
    simp only [seller.create_stocks] at h
    cases hl : seller.create_stocks_loop ws offers with
    | none => rw [hl] at h; cases h
    | some p =>
      obtain ⟨recs, rem'⟩ := p
      rw [hl] at h
      simp only [Option.some.injEq, Prod.mk.injEq] at h
      obtain ⟨-, rfl⟩ := h
      exact seller_loop_rem ws offers recs rem' hS hl
  refine ⟨hsell, ?_⟩
  intro date wid mstocks mrem h
  rw [market_create_stocks_eq] at h
  cases hc : seller.create_stocks ws offers with
  | none => rw [hc] at h; cases h
  | some p =>
    obtain ⟨stocks, rem⟩ := p
    rw [hc] at h
    simp only [Option.map_some', Option.some.injEq, Prod.mk.injEq] at h
    obtain ⟨-, rfl⟩ := h
    exact hsell stocks rem hc

theorem C3_offer_ids_consumed_witness :
    (["B"] : List String) =
      (["A", "B"] : List String).filter
        (fun o => decide (o ∉
          ([{ code := "A", quantityRaw := "3", priceRaw := "10" }] : List Watch).map Watch.code)) :=
  (C3_offer_ids_consumed [{ code := "A", quantityRaw := "3", priceRaw := "10" }] ["A", "B"]
      (by decide)).1
    [{ offer_id := "A", stock := 3 }, { offer_id := "B", stock := 0 }] ["B"] (by decide)

/-- C9 counterexample: on the quantity token "-5" the `int` branch
produces a negative stock, so the unrestricted claim "every produced
stock is ≥ 0" fails on the code. -/
theorem C9_counterexample :
    seller.create_stocks [{ code := "A", quantityRaw := "-5", priceRaw := "100" }] ["A"]
        = some ([{ offer_id := "A", stock := -5 }], []) ∧
    ¬ (0 : Int) ≤ -5 :=
  ⟨by decide, by decide⟩

/-- C9 (amended): when every quantity token that parses as an integer
parses to a non-negative one, every stock record produced by
`create_stocks` on either marketplace carries a non-negative stock. -/
theorem C9_stock_nonneg (ws : List Watch) (offers : List String)
    (hq : ∀ w ∈ ws, ∀ k : Int, pyToInt w.quantityRaw = some k → 0 ≤ k) :
    (∀ (stocks : List seller.StockRecord) (rem : List String),
      seller.create_stocks ws offers = some (stocks, rem) →
      ∀ r ∈ stocks, 0 ≤ r.stock) ∧
    (∀ (date wid : String) (mstocks : List market.StockRecord) (mrem : List String),
      market.create_stocks date wid ws offers = some (mstocks, mrem) →
      ∀ r ∈ mstocks, ∀ it ∈ r.items, 0 ≤ it.count) := by
  have hnq : ∀ (s : String) (k : Int), seller.normalize_quantity s = some k →
      k = 100 ∨ k = 0 ∨ pyToInt s = some k := by
    intro s k h
    simp only [seller.normalize_quantity] at h
    split at h
    · injection h with h
      exact Or.inl h.symm
    · split at h
      · injection h with h
        exact Or.inr (Or.inl h.symm)
      · exact Or.inr (Or.inr h)
  have hsell : ∀ (stocks : List seller.StockRecord) (rem : List String),
      seller.create_stocks ws offers = some (stocks, rem) →
      ∀ r ∈ stocks, 0 ≤ r.stock := by
    intro stocks rem h r hr
    simp only [seller.create_stocks] at h
    cases hl : seller.create_stocks_loop ws offers with
    | none => rw [hl] at h; cases h
    | some p =>
      obtain ⟨recs, rem'⟩ := p
      rw [hl] at h
      simp only [Option.some.injEq, Prod.mk.injEq] at h
      obtain ⟨rfl, rfl⟩ := h
      rcases List.mem_append.mp hr with hr1 | hr2
      · obtain ⟨w, hw, -, hs⟩ := seller_loop_matched ws offers recs rem' hl r hr1
        rcases hnq _ _ hs with h100 | h0 | hp
        · omega
        · omega
        · exact hq w hw r.stock hp
      · obtain ⟨oid, -, rfl⟩ := List.mem_map.mp hr2
        simp
  refine ⟨hsell, ?_⟩
  intro date wid mstocks mrem h r hr it hit
  rw [market_create_stocks_eq] at h
  cases hc : seller.create_stocks ws offers with
  | none => rw [hc] at h; cases h
  | some p =>
    obtain ⟨stocks, rem⟩ := p
    rw [hc] at h
    simp only [Option.map_some', Option.some.injEq, Prod.mk.injEq] at h
    obtain ⟨hms, -⟩ := h
    subst hms
    obtain ⟨r0, hr0, rfl⟩ := List.mem_map.mp hr
    simp only [ofSellerStock, List.mem_singleton] at hit
    subst hit
    exact hsell stocks rem hc r0 hr0

theorem C9_stock_nonneg_witness :
    (0 : Int) ≤ ({ offer_id := "A", stock := 7 } : seller.StockRecord).stock :=
  (C9_stock_nonneg [{ code := "A", quantityRaw := "7", priceRaw := "9" }] ["A"]
      (by
        intro w hw k hk
        rw [List.mem_singleton] at hw
        subst hw
        have hk' : pyToInt "7" = some k := hk
        rw [(by decide : pyToInt "7" = some (7 : Int))] at hk'
        injection hk' with hk'
        omega)).1
    [{ offer_id := "A", stock := 7 }] [] (by decide)
    { offer_id := "A", stock := 7 } (by decide)

/-- C10: `create_prices` is non-destructive on both marketplaces — the
loop returns the caller's offer-id list unchanged (and the inventory
list is only read; it is not part of the mutable state at all). -/
theorem C10_create_prices_nondestructive (ws : List Watch) (offers : List String) :
    (seller.create_prices ws offers).2 = offers ∧
    (∀ (prices : List market.PriceRecord) (os : List String),
      market.create_prices ws offers = some (prices, os) → os = offers) :=
  ⟨seller_prices_state ws offers,
   fun prices os h => market_prices_state ws offers prices os h⟩

theorem C10_create_prices_nondestructive_witness :
    (seller.create_prices [{ code := "A", quantityRaw := "1", priceRaw := "99" }] ["A"]).2
        = ["A"] ∧
    (["A"] : List String) = ["A"] :=
  ⟨(C10_create_prices_nondestructive
      [{ code := "A", quantityRaw := "1", priceRaw := "99" }] ["A"]).1,
   (C10_create_prices_nondestructive
      [{ code := "A", quantityRaw := "1", priceRaw := "99" }] ["A"]).2
     [{ id := "A", price := { value := 99, currencyId := "RUR" } }] ["A"] (by decide)⟩

/-- `pySplitDot` never returns an empty segment list, so indexing `[0]`
in the source never fails. -/
theorem pySplitDot_ne_nil (l : List Char) : pySplitDot l ≠ [] := by
  cases l with
  | nil => simp [pySplitDot]
  | cons c cs =>
    simp only [pySplitDot]
    by_cases hc : c = '.'
    · rw [if_pos hc]; simp
    · rw [if_neg hc]
      cases pySplitDot cs with
      | nil => simp
      | cons seg rest => simp

/-- The first segment of the split is the prefix before the first dot. -/
theorem pySplitDot_head (l : List Char) :
    (pySplitDot l).headD [] = l.takeWhile (fun c => c != '.') := by
  induction l with
  | nil => simp [pySplitDot]
  | cons c cs ih =>
    simp only [pySplitDot]
    by_cases hc : c = '.'
    · rw [if_pos hc]
      subst hc
      simp [List.takeWhile_cons]
    · rw [if_neg hc]
      cases hs : pySplitDot cs with
      | nil => exact absurd hs (pySplitDot_ne_nil cs)
      | cons seg rest =>
        rw [hs] at ih
        simp only [List.headD_cons] at ih
        simp [List.takeWhile_cons, hc, ih]

/-- C4: price normalization keeps the portion of the string before the
first `.` and removes every character that is not an ASCII digit;
the spec's two examples evaluate as stated. -/
theorem C4_price_normalization :
    (∀ s : String, seller.price_conversion s
        = String.mk ((s.toList.takeWhile (fun c => c != '.')).filter Char.isDigit)) ∧
    seller.price_conversion "1 234.56 ₽" = "1234" ∧
    seller.price_conversion "999" = "999" := by
  refine ⟨?_, by decide, by decide⟩
  intro s
  unfold seller.price_conversion
  rw [pySplitDot_head]

/-- C8: contrary to the claim (and to the function's own docstring,
which promises a `ValueError` on an empty price), `price_conversion`
silently returns the empty string when no digit precedes the first dot. -/
theorem C8_empty_price_string :
    seller.price_conversion "" = "" ∧
    seller.price_conversion "abc" = "" ∧
    seller.price_conversion ".99" = "" :=
  ⟨by decide, by decide, by decide⟩

/-- Recursive view of the slices `lst[i*n : i*n + n]` that `divide`
yields: take the first `n`, recurse on the rest. -/
def chunkRec {α : Type} (n : Nat) : List α → List (List α)
  | [] => []
  | x :: xs =>
    if _h : n = 0 then []
    else (x :: xs).take n :: chunkRec n ((x :: xs).drop n)
termination_by l => l.length
decreasing_by simp [List.length_drop]; omega

theorem chunkRec_flatten {α : Type} (n : Nat) (hn : 0 < n) :
    ∀ l : List α, (chunkRec n l).flatten = l
  | [] => by simp [chunkRec]
  | x :: xs => by
    have h0 : ¬ n = 0 := by omega
    simp only [chunkRec]
    rw [dif_neg h0]
    simp only [List.flatten_cons]
    rw [chunkRec_flatten n hn ((x :: xs).drop n)]
    exact List.take_append_drop n (x :: xs)
termination_by l => l.length
decreasing_by simp [List.length_drop]; omega

theorem chunkRec_mem_length {α : Type} (n : Nat) (hn : 0 < n) :
    ∀ l : List α, ∀ c ∈ chunkRec n l, 1 ≤ c.length ∧ c.length ≤ n
  | [] => by simp [chunkRec]
  | x :: xs => by
    have h0 : ¬ n = 0 := by omega
    intro c hc
    simp only [chunkRec] at hc
    rw [dif_neg h0] at hc
    rcases List.mem_cons.mp hc with h1 | h2
    · subst h1
      refine ⟨?_, ?_⟩ <;> simp only [List.length_take, List.length_cons] <;> omega
    · exact chunkRec_mem_length n hn ((x :: xs).drop n) c h2
termination_by l => l.length
decreasing_by simp [List.length_drop]; omega

theorem chunkRec_dropLast_length {α : Type} (n : Nat) (hn : 0 < n) :
    ∀ l : List α, ∀ c ∈ (chunkRec n l).dropLast, c.length = n
  | [] => by simp [chunkRec]
  | x :: xs => by
    have h0 : ¬ n = 0 := by omega
    intro c hc
    simp only [chunkRec] at hc
    rw [dif_neg h0] at hc
    cases hrest : chunkRec n ((x :: xs).drop n) with
    | nil => rw [hrest] at hc; simp at hc
    | cons r rs =>
      rw [hrest] at hc
      rw [List.dropLast_cons_of_ne_nil (by simp)] at hc
      rcases List.mem_cons.mp hc with h1 | h2
      · subst h1
        have hne : (x :: xs).drop n ≠ [] := by
          intro hdrop
          rw [hdrop] at hrest
          simp [chunkRec] at hrest
        have hlen : n < (x :: xs).length := by
          by_contra hle
          push_neg at hle
          exact hne (List.drop_eq_nil_of_le hle)
        simp only [List.length_take]
        omega
      · exact chunkRec_dropLast_length n hn ((x :: xs).drop n) c (by rw [hrest]; exact h2)
termination_by l => l.length
decreasing_by simp [List.length_drop]; omega

/-- The `range`-indexed slices of `divide` coincide with the recursive
chunking. -/
theorem range_chunks {α : Type} (n : Nat) (hn : 0 < n) :
    ∀ l : List α,
      (List.range ((l.length + n - 1) / n)).map (fun i => (l.drop (i * n)).take n)
        = chunkRec n l
  | [] => by simp [chunkRec, Nat.div_eq_of_lt (by omega : n - 1 < n)]
  | x :: xs => by
    have h0 : ¬ n = 0 := by omega
    have hcount : ((x :: xs).length + n - 1) / n
        = (((x :: xs).drop n).length + n - 1) / n + 1 := by
      rw [List.length_drop]
      have hlen : 0 < (x :: xs).length := by simp
      generalize (x :: xs).length = len at hlen ⊢
      have h1 : len + n - 1 = (len - 1) + n := by omega
      rw [h1, Nat.add_div_right _ hn]
      by_cases hc : len ≤ n
      · have he : len - n = 0 := by omega
        rw [he]
        have e2 : 0 + n - 1 = n - 1 := by omega
        rw [e2, Nat.div_eq_of_lt (by omega), Nat.div_eq_of_lt (by omega)]
      · have he : len - n + n - 1 = len - 1 := by omega
        rw [he]
    simp only [chunkRec]
    rw [dif_neg h0, hcount, List.range_succ_eq_map]
    rw [← range_chunks n hn ((x :: xs).drop n)]
    simp only [List.map_cons, List.map_map, Nat.zero_mul, List.drop_zero]
    congr 1
    apply List.map_congr_left
    intro i _
    simp only [Function.comp_apply, List.drop_drop]
    congr 2
    rw [Nat.succ_mul]
    omega
termination_by l => l.length
decreasing_by simp [List.length_drop]; omega

/-- `divide` with a positive size is exactly the recursive chunking. -/
theorem divide_eq_chunkRec {α : Type} (lst : List α) (n : Int) (hn : 1 ≤ n) :
    seller.divide lst n = some (chunkRec n.toNat lst) := by
  obtain ⟨m, rfl⟩ : ∃ m : Nat, n = (m : Int) :=
    ⟨n.toNat, (Int.toNat_of_nonneg (by omega)).symm⟩
  have hm : 0 < m := by omega
  have h0 : (m : Int) ≠ 0 := by omega
  simp only [seller.divide, if_neg h0, pyRange0, if_pos (by omega : (0 : Int) < (m : Int))]
  rw [List.map_map]
  simp only [Int.toNat_natCast]
  rw [← range_chunks m hm lst]
  congr 1
  apply List.map_congr_left
  intro i _
  simp only [Function.comp_apply, pySlice]
  have e0 : Int.ofNat i = (i : Int) := rfl
  rw [e0]
  have e1 : ((i : Int) * (m : Int)).toNat = i * m := by
    rw [← Int.natCast_mul, Int.toNat_natCast]
  have e2 : ((i : Int) * (m : Int) + (m : Int) - (i : Int) * (m : Int)).toNat = m := by
    have : (i : Int) * (m : Int) + (m : Int) - (i : Int) * (m : Int) = (m : Int) := by ring
    rw [this, Int.toNat_natCast]
  rw [e1, e2]

/-- C5: for every list and size ≥ 1, `divide` yields contiguous,
order-preserving chunks — concatenating them reproduces the input —
with every non-final chunk of exactly `size` elements and every chunk
(including the final one) of 1..size elements; the empty list yields an
empty sequence. -/
theorem C5_divide_batches {α : Type} (lst : List α) (n : Int) (hn : 1 ≤ n) :
    ∃ chunks : List (List α), seller.divide lst n = some chunks ∧
      chunks.flatten = lst ∧
      (∀ c ∈ chunks.dropLast, c.length = n.toNat) ∧
      (∀ c ∈ chunks, 1 ≤ c.length ∧ c.length ≤ n.toNat) ∧
      (lst = [] → chunks = []) := by
  have hpos : 0 < n.toNat := by omega
  exact ⟨chunkRec n.toNat lst, divide_eq_chunkRec lst n hn,
         chunkRec_flatten n.toNat hpos lst,
         chunkRec_dropLast_length n.toNat hpos lst,
         chunkRec_mem_length n.toNat hpos lst,
         fun h => by subst h; simp [chunkRec]⟩

theorem C5_divide_batches_witness :
    (1 : Int) ≤ 2 ∧
    (∃ chunks : List (List Nat), seller.divide [1, 2, 3, 4, 5] (2 : Int) = some chunks ∧
      chunks.flatten = [1, 2, 3, 4, 5] ∧
      (∀ c ∈ chunks.dropLast, c.length = (2 : Int).toNat) ∧
      (∀ c ∈ chunks, 1 ≤ c.length ∧ c.length ≤ (2 : Int).toNat) ∧
      ([1, 2, 3, 4, 5] = ([] : List Nat) → chunks = [])) ∧
    seller.divide [1, 2, 3, 4, 5] (2 : Int) = some [[1, 2], [3, 4], [5]] :=
  ⟨by decide, C5_divide_batches [1, 2, 3, 4, 5] 2 (by decide), by decide⟩

/-- C7: the batcher does raise for size 0 (from `range`), matching its
docstring, but for a negative size it silently yields an empty sequence
instead of the documented `ValueError` — evaluated here at the failing
input `divide([1,2,3], -1)`. -/
theorem C7_negative_size_no_error :
    seller.divide ([1, 2, 3] : List Nat) (-1) = some [] ∧
    (∀ (α : Type) (lst : List α), seller.divide lst 0 = none) := by
  refine ⟨by decide, ?_⟩
  intro α lst
  simp [seller.divide]

/-- If every batch before index `i` is acknowledged and batch `i` fails,
the submission loop calls `submit` on exactly the first `i + 1` batches,
in order and once each, and reports the error. -/
theorem submit_loop_spec {β ε : Type} (submit : β → Except ε Unit) :
    ∀ (batches : List β) (i : Nat) (hi : i < batches.length) (e : ε),
      (∀ b ∈ batches.take i, submit b = .ok ()) →
      submit (batches.get ⟨i, hi⟩) = .error e →
      seller.submit_loop submit batches = (batches.take (i + 1), some e) := by
  intro batches
  induction batches with
  | nil => intro i hi; simp at hi
  | cons b bs ih =>
    intro i hi e hok hfail
    cases i with
    | zero =>
      simp only [List.get] at hfail
      simp only [seller.submit_loop]
      rw [hfail]
      simp
    | succ j =>
      have hb : submit b = .ok () := hok b (by simp)
      have hj : j < bs.length := by simpa using hi
      have hfail' : submit (bs.get ⟨j, hj⟩) = .error e := hfail
      have hok' : ∀ x ∈ bs.take j, submit x = .ok () := by
        intro x hx
        exact hok x (by simp [List.mem_cons]; exact Or.inr hx)
      simp only [seller.submit_loop]
      rw [hb, ih j hj e hok' hfail']
      simp [List.take_succ_cons]

/-- C6: if submitting batch N of M raises a remote error, batches
1..N-1 have already been submitted (each exactly once, in order), batch
N was attempted once and failed, batches N+1..M are never attempted, and
the error propagates to the caller — for the upload orchestrators of
both marketplaces. -/
theorem C6_batch_failure (ε : Type) :
    (∀ (ws : List Watch) (offers : List String)
        (submit : List seller.StockRecord → Except ε Unit)
        (stocks : List seller.StockRecord) (rem : List String)
        (batches : List (List seller.StockRecord)),
      seller.create_stocks ws offers = some (stocks, rem) →
      seller.divide stocks 100 = some batches →
      ∀ (i : Nat) (hi : i < batches.length) (e : ε),
        (∀ b ∈ batches.take i, submit b = .ok ()) →
        submit (batches.get ⟨i, hi⟩) = .error e →
        seller.upload_stocks ws offers submit
          = some (batches.take (i + 1), .error e)) ∧
    (∀ (date wid : String) (ws : List Watch) (offers : List String)
        (submit : List market.StockRecord → Except ε Unit)
        (stocks : List market.StockRecord) (rem : List String)
        (batches : List (List market.StockRecord)),
      market.create_stocks date wid ws offers = some (stocks, rem) →
      seller.divide stocks 2000 = some batches →
      ∀ (i : Nat) (hi : i < batches.length) (e : ε),
        (∀ b ∈ batches.take i, submit b = .ok ()) →
        submit (batches.get ⟨i, hi⟩) = .error e →
        market.upload_stocks date wid ws offers submit
          = some (batches.take (i + 1), .error e)) := by
  constructor
  · intro ws offers submit stocks rem batches hcs hb i hi e hok hfail
    simp only [seller.upload_stocks, hcs, hb]
    rw [submit_loop_spec submit batches i hi e hok hfail]
  · intro date wid ws offers submit stocks rem batches hcs hb i hi e hok hfail
    simp only [market.upload_stocks, hcs, hb]
    rw [submit_loop_spec submit batches i hi e hok hfail]

theorem C6_batch_failure_witness :
    seller.upload_stocks [] ["A"] (fun _ => (.error 0 : Except Nat Unit))
      = some ([[{ offer_id := "A", stock := 0 }]], .error 0) :=
  (C6_batch_failure Nat).1 [] ["A"] (fun _ => .error 0)
    [{ offer_id := "A", stock := 0 }] ["A"] [[{ offer_id := "A", stock := 0 }]]
    (by decide) (by decide) 0 (by decide) 0
    (by intro b hb; simp at hb)
    rfl
